import Mathlib

/-!
Shallow embedding of the `kontacto` command-line assistant's command layer:

* `src/kontacto/utils/fuzzy_matcher.py` — similarity scoring (rapidfuzz
  `fuzz.ratio`, i.e. normalised Indel similarity `2·LCS/(|s1|+|s2|)` as a
  percentage), best-match search, suggestion lists, and the `shlex`-based
  tokenizer with its naive-split fallback;
* `src/kontacto/commands/base_command.py` — `CommandRegistry` with its
  `register` / `get` / `get_command_names` operations (Python dicts are
  modelled as insertion-ordered association lists; a raised `ValueError`
  is modelled as an error value returned next to the post-state, since the
  mutations made before the raise survive in Python);
* `src/kontacto/main.py` — the dispatcher `Kontacto.process_command`,
  parameterised by each command's `validate_args` and `execute` behaviour;
  Python exceptions are modelled by `Except`: `SystemExit` (raised by
  `sys.exit`) is *not* a subclass of `Exception`, so the dispatcher's
  `except Exception` clause catches `.exception` but lets `.systemExit`
  propagate.

Machine strings are `String` (lists of characters); `str.lower`, `str.strip`
and `str.split` are modelled on their ASCII behaviour, which is the range the
program's command names and the claims exercise. Similarity scores, which
Python computes as floats of the form `k/100` with small numerators, are
modelled as rationals.
-/

namespace Kontacto

/-- Characters stripped by Python's `str.strip()` / split by `str.split()`
(ASCII range). -/
def pyStripSpace (c : Char) : Bool :=
  c = ' ' || c = '\t' || c = '\n' || c = '\r' || c = '\x0b' || c = '\x0c'

/-- Python `str.strip()`: drop leading and trailing whitespace. -/
def pyStrip (l : List Char) : List Char :=
  ((l.dropWhile pyStripSpace).reverse.dropWhile pyStripSpace).reverse

/-- Helper for `splitWS`: `acc` is the current word, reversed. -/
def splitWSGo : List Char → List Char → List String
  | [], acc => if acc = [] then [] else [String.mk acc.reverse]
  | c :: rest, acc =>
    if pyStripSpace c then
      if acc = [] then splitWSGo rest []
      else String.mk acc.reverse :: splitWSGo rest []
    else splitWSGo rest (c :: acc)

/-- Python `str.split()` with no argument: split on whitespace runs,
discarding empty words. -/
def splitWS (l : List Char) : List String := splitWSGo l []

/-- Python `str.lower()` (ASCII range). -/
def pyLower (s : String) : String := String.mk (s.toList.map Char.toLower)

/-- Lookup in a Python dict modelled as an insertion-ordered association
list with unique keys. -/
def dictLookup {β : Type} (d : List (String × β)) (k : String) : Option β :=
  (d.find? (fun p => p.1 = k)).map Prod.snd

/-- Python `d[k] = v`: replace in place if the key is present, else append. -/
def dictInsert {β : Type} : List (String × β) → String → β → List (String × β)
  | [], k, v => [(k, v)]
  | (k', v') :: rest, k, v =>
    if k' = k then (k, v) :: rest else (k', v') :: dictInsert rest k v

/-- Python `list(d.keys())`: keys in insertion order. -/
def dictKeys {β : Type} (d : List (String × β)) : List String := d.map Prod.fst

/-- Length of a longest common subsequence of two character lists. The Indel
distance used by rapidfuzz is `|s|+|t| - 2·lcsLen s t`. -/
def lcsLen : List Char → List Char → Nat
  | [], _ => 0
  | _ :: _, [] => 0
  | a :: as, b :: bs =>
    if a = b then lcsLen as bs + 1
    else max (lcsLen (a :: as) bs) (lcsLen as (b :: bs))
termination_by s t => s.length + t.length

/-- rapidfuzz `fuzz.ratio(s1, s2)`: the normalised Indel similarity as a
percentage, `100 · (1 - dist/(|s1|+|s2|)) = 100 · 2·LCS/(|s1|+|s2|)`; defined
as `100` when both strings are empty. -/
def fuzzScore (s1 s2 : String) : ℚ :=
  if s1.toList.length + s2.toList.length = 0 then 100
  else 100 * (2 * lcsLen s1.toList s2.toList) /
    (s1.toList.length + s2.toList.length)

/-- The similarity the matcher compares against its thresholds:
`fuzz.ratio(query.lower(), candidate.lower()) / 100.0`. -/
def similarity (query candidate : String) : ℚ :=
  fuzzScore (pyLower query) (pyLower candidate) / 100

/-- The candidate loop of `find_best_match`: `best` and `bestScore` are the
running `best_match` / `best_ratio` variables. -/
def findBestLoop (ql : String) (threshold : ℚ) :
    List String → Option String → ℚ → Option String
  | [], best, _ => best
  | cand :: rest, best, bestScore =>
    let score := fuzzScore ql (pyLower cand) / 100
    if bestScore < score ∧ threshold ≤ score then
      findBestLoop ql threshold rest (some cand) score
    else
      findBestLoop ql threshold rest best bestScore

/-- `find_best_match(query, candidates, threshold)` from
`utils/fuzzy_matcher.py`: best candidate by `fuzz.ratio` on lowercased
strings, kept only when a candidate strictly improves the running best and
meets the threshold (source default `threshold = 0.6`). -/
def find_best_match (query : String) (candidates : List String)
    (threshold : ℚ) : Option String :=
  if candidates = [] then none
  else findBestLoop (pyLower query) threshold candidates none 0

/-- `find_suggestions(query, candidates, max_suggestions)`: all candidates
paired with their similarity, sorted descending (Python's stable `sort` with
`reverse=True`), truncated to `max_suggestions`. -/
def find_suggestions (query : String) (candidates : List String)
    (max_suggestions : Nat) : List (String × ℚ) :=
  if candidates = [] then []
  else
    let ql := pyLower query
    let suggestions := candidates.map (fun c => (c, fuzzScore ql (pyLower c) / 100))
    (suggestions.mergeSort (fun a b => b.2 ≤ a.2)).take max_suggestions

/-- `is_partial_match(query, candidate)`:
`candidate.lower().startswith(query.lower())`. -/
def is_partial_match (query candidate : String) : Bool :=
  (pyLower query).toList.isPrefixOf (pyLower candidate).toList

/-- `get_command_suggestions(input_text, available_commands)`: prefix matches
first (up to 3, in candidate order); only if none exist, fuzzy suggestions
with similarity strictly above `0.4`. -/
def get_command_suggestions (input_text : String)
    (available_commands : List String) : List String :=
  let prefix_matches :=
    available_commands.filter (fun cmd => is_partial_match input_text cmd)
  if prefix_matches ≠ [] then prefix_matches.take 3
  else
    let fuzzy_suggestions := find_suggestions input_text available_commands 3
    (fuzzy_suggestions.filter (fun p => (2 : ℚ)/5 < p.2)).map Prod.fst

/-- Whitespace of the `shlex` lexer (`shlex.whitespace = ' \t\r\n'`). -/
def shlexWS (c : Char) : Bool := c = ' ' || c = '\t' || c = '\r' || c = '\n'

/-- Quote characters of the `shlex` lexer (`shlex.quotes`). -/
def isQuoteChar (c : Char) : Bool := c = '\'' || c = '"'

/-- State of the `shlex.read_token` automaton in the configuration used by
`shlex.split` (POSIX mode, `whitespace_split=True`, no comment or punctuation
characters): between tokens (`ws`), inside a word (`word`), inside a quoted
section (`quote q`), or after a backslash (`esc inDq`, where `inDq` records
whether the escape occurred inside double quotes — `escapedstate`). -/
inductive ShlexState where
  | ws : ShlexState
  | word : ShlexState
  | quote (q : Char) : ShlexState
  | esc (inDq : Bool) : ShlexState
deriving DecidableEq, Repr

/-- The `shlex.split` tokenizer: `tok` is the current token (as in
`shlex.token`), `q` the `quoted` flag, `acc` the emitted tokens in reverse.
Returns `none` where CPython raises `ValueError` ("No closing quotation" /
"No escaped character" when the input ends inside a quote or an escape). -/
def shlexLoop : List Char → ShlexState → List Char → Bool → List String →
    Option (List String)
  | [], .ws, tok, q, acc =>
    if tok ≠ [] ∨ q then some (String.mk tok :: acc).reverse else some acc.reverse
  | [], .word, tok, q, acc =>
    if tok ≠ [] ∨ q then some (String.mk tok :: acc).reverse else some acc.reverse
  | [], .quote _, _, _, _ => none
  | [], .esc _, _, _, _ => none
  | c :: rest, .ws, tok, q, acc =>
    if shlexWS c then
      if tok ≠ [] ∨ q then shlexLoop rest .ws [] false (String.mk tok :: acc)
      else shlexLoop rest .ws tok q acc
    else if c = '\\' then shlexLoop rest (.esc false) tok q acc
    else if isQuoteChar c then shlexLoop rest (.quote c) tok true acc
    else shlexLoop rest .word (tok ++ [c]) q acc
  | c :: rest, .word, tok, q, acc =>
    if shlexWS c then
      if tok ≠ [] ∨ q then shlexLoop rest .ws [] false (String.mk tok :: acc)
      else shlexLoop rest .ws tok q acc
    else if isQuoteChar c then shlexLoop rest (.quote c) tok true acc
    else if c = '\\' then shlexLoop rest (.esc false) tok q acc
    else shlexLoop rest .word (tok ++ [c]) q acc
  | c :: rest, .quote qc, tok, _, acc =>
    if c = qc then shlexLoop rest .word tok true acc
    else if qc = '"' ∧ c = '\\' then shlexLoop rest (.esc true) tok true acc
    else shlexLoop rest (.quote qc) (tok ++ [c]) true acc
  | c :: rest, .esc inDq, tok, q, acc =>
    if inDq then
      if c = '\\' ∨ c = '"' then shlexLoop rest (.quote '"') (tok ++ [c]) q acc
      else shlexLoop rest (.quote '"') (tok ++ ['\\', c]) q acc
    else shlexLoop rest .word (tok ++ [c]) q acc

/-- `shlex.split(s)` on a character list: `none` models the `ValueError`
raised on malformed quoting. -/
def shlexSplit (l : List Char) : Option (List String) :=
  shlexLoop l .ws [] false []

/-- Tail of `parse_command_input` once the parts list is known: lowercase the
first part, resolve it through the alias dictionary, return it with the
remaining parts as arguments. -/
def finishParse (parts : List String)
    (command_aliases : List (String × String)) : String × List String :=
  match parts with
  | [] => ("", [])
  | p0 :: args =>
    let command := pyLower p0
    match dictLookup command_aliases command with
    | some canonical => (canonical, args)
    | none => (command, args)

/-- `parse_command_input(input_text, command_aliases)`: strip the input, split
it with `shlex.split`, falling back to a naive whitespace split when `shlex`
raises; empty input yields `("", [])`. -/
def parse_command_input (input_text : String)
    (command_aliases : List (String × String)) : String × List String :=
  match shlexSplit (pyStrip input_text.toList) with
  | some parts => finishParse parts command_aliases
  | none => finishParse (splitWS (pyStrip input_text.toList)) command_aliases

/-- The registration-relevant data of a `BaseCommand` descriptor. -/
structure BaseCommand where
  name : String
  aliases : List String
  description : String
  usage : String
deriving DecidableEq, Repr

/-- The `ValueError`s raised by `CommandRegistry.register`. -/
inductive RegError where
  | duplicateName (name : String) : RegError
  | duplicateAlias (a : String) : RegError
deriving DecidableEq, Repr

/-- `CommandRegistry`: `commands` models the `_commands` dict (primary name →
descriptor), `aliases` the `_aliases` dict (alias → primary name), both as
insertion-ordered association lists. -/
structure CommandRegistry where
  commands : List (String × BaseCommand)
  aliases : List (String × String)
deriving DecidableEq, Repr

/-- A freshly constructed registry: both dicts empty. -/
def emptyRegistry : CommandRegistry := ⟨[], []⟩

/-- The alias loop of `register`: insert each alias in turn, stopping with an
error (and keeping the insertions already made) on the first alias that is
already registered. -/
def registerAliases (r : CommandRegistry) (cname : String) :
    List String → CommandRegistry × Option RegError
  | [] => (r, none)
  | a :: rest =>
    if (dictLookup r.aliases a).isSome then (r, some (.duplicateAlias a))
    else
      registerAliases { r with aliases := dictInsert r.aliases a cname } cname rest

/-- `CommandRegistry.register(command)`: refuse a duplicate primary name,
otherwise insert the primary mapping and then the alias mappings one by one.
The returned registry is the post-state even when an error is raised, since
the Python dict mutations made before the raise persist. -/
def register (r : CommandRegistry) (c : BaseCommand) :
    CommandRegistry × Option RegError :=
  if (dictLookup r.commands c.name).isSome then (r, some (.duplicateName c.name))
  else
    registerAliases { r with commands := dictInsert r.commands c.name c }
      c.name c.aliases

/-- `CommandRegistry.get(command_name)`: resolve an alias to its primary name,
then look the primary name up. -/
def CommandRegistry.get (r : CommandRegistry) (command_name : String) :
    Option BaseCommand :=
  match dictLookup r.aliases command_name with
  | some canonical => dictLookup r.commands canonical
  | none => dictLookup r.commands command_name

/-- Lexicographic comparison of character lists by code point, as Python
compares strings. -/
def charListLe : List Char → List Char → Bool
  | [], _ => true
  | _ :: _, [] => false
  | a :: as, b :: bs =>
    if a < b then true else if b < a then false else charListLe as bs

/-- Python's `<=` on strings: lexicographic by code point. -/
def strLe (a b : String) : Bool := charListLe a.toList b.toList

/-- `CommandRegistry.get_command_names()`: `sorted` over the primary names
followed by the aliases. Python's `sorted` is modelled by insertion sort:
string comparison is a linear order, so every sorting algorithm returns the
same list. -/
def get_command_names (r : CommandRegistry) : List String :=
  List.insertionSort (fun a b => strLe a b = true)
    (dictKeys r.commands ++ dictKeys r.aliases)

/-- Python exceptions as the dispatcher distinguishes them: `exception` is any
`Exception` subclass (caught by `except Exception`), `systemExit` is the
`SystemExit` raised by `sys.exit(code)`, which derives from `BaseException`
only and passes through `except Exception`. -/
inductive PyError where
  | exception (msg : String) : PyError
  | systemExit (code : Nat) : PyError
deriving DecidableEq, Repr

/-- Observable outcome of one `process_command` call. -/
inductive Outcome where
  | noop : Outcome
  | unknown (command_name : String) (suggestion : Option String) : Outcome
  | invalidArgs (usage : String) : Outcome
  | executed : Outcome
  | errorExecuting (msg : String) : Outcome
deriving DecidableEq, Repr

/-- The `command_aliases` dict built at the top of `process_command`: for each
`cmd_name` in `get_command_names()` (a primary name or an alias), map it to
itself and map every alias of the resolved command to `cmd_name` (the loop
variable, as in the source — not necessarily the primary name). -/
def buildCommandAliases (r : CommandRegistry) : List (String × String) :=
  (get_command_names r).foldl
    (fun d cmd_name =>
      match r.get cmd_name with
      | none => d
      | some cmd =>
        cmd.aliases.foldl (fun d' a => dictInsert d' a cmd_name)
          (dictInsert d cmd_name cmd_name))
    []

/-- `Kontacto.process_command(input_text)`, parameterised by the per-command
`validate_args` and `execute` behaviours. The result is `Except` so that an
uncaught Python exception (only `SystemExit`, per the `except Exception`
handler around `execute`) appears as `.error`. -/
def process_command (r : CommandRegistry)
    (validate : BaseCommand → List String → Bool)
    (exec : BaseCommand → List String → Except PyError Unit)
    (input_text : String) : Except PyError Outcome :=
  if pyStrip input_text.toList = [] then .ok .noop
  else
    let command_aliases := buildCommandAliases r
    let parsed := parse_command_input input_text command_aliases
    let command_name := parsed.1
    let args := parsed.2
    if command_name = "" then .ok .noop
    else
      match r.get command_name with
      | none =>
        .ok (.unknown command_name
          (find_best_match command_name (get_command_names r) (3/5)))
      | some command =>
        if validate command args = false then .ok (.invalidArgs command.usage)
        else
          match exec command args with
          | .ok _ => .ok .executed
          | .error (.exception m) =>
            .ok (.errorExecuting ("Error executing command: " ++ m))
          | .error (.systemExit code) => .error (.systemExit code)

/-- Registry obtained by attempting `register` for each descriptor in turn,
starting from a fresh registry, keeping the post-state of every call (as the
Python object would after each mutation). -/
def registerAll (cs : List BaseCommand) : CommandRegistry :=
  cs.foldl (fun r c => (register r c).1) emptyRegistry

/-- Greatest similarity any candidate reaches against `query` (`0` for an
empty candidate list; similarities are nonnegative, so the greatest one is
attained whenever the list is nonempty). -/
def maxSimilarity (query : String) (candidates : List String) : ℚ :=
  (candidates.map (fun c => similarity query c)).foldr max 0

/-- Characters of a double-quoted argument sequence: a space, then the
argument wrapped in double quotes, for each argument in turn. -/
def quotedArgsChars : List (List Char) → List Char
  | [] => []
  | a :: rest => ' ' :: '"' :: (a ++ '"' :: quotedArgsChars rest)

/-- An input line made of a command word followed by double-quoted arguments,
e.g. `cmd "arg one" "arg two"`. -/
def mkQuotedInput (cmd : String) (args : List String) : String :=
  String.mk (cmd.toList ++ quotedArgsChars (args.map String.toList))

/-- A character that the tokenizer treats as plain word material: not
whitespace (neither the lexer's nor `str.strip`'s), not a quote, not a
backslash. -/
def plainChar (c : Char) : Bool :=
  !pyStripSpace c && !shlexWS c && !isQuoteChar c && c ≠ '\\'

/-- The `exit` command as registered by `_add_builtin_commands`. -/
def exitCommand : BaseCommand :=
  { name := "exit", aliases := ["quit", "q", "bye"],
    description := "Exit the application", usage := "exit" }

/-- `ExitCommand.execute`: prints a farewell and calls `sys.exit(0)`, i.e.
raises `SystemExit 0`. -/
def exitCommandExecute : Except PyError Unit := .error (.systemExit 0)

end Kontacto

namespace Kontacto

theorem dictLookup_cons {β : Type} (k0 : String) (v0 : β) (d : List (String × β))
    (k : String) :
    dictLookup ((k0, v0) :: d) k = if k0 = k then some v0 else dictLookup d k := by
  by_cases h : k0 = k <;> simp [dictLookup, List.find?_cons, h]

theorem dictLookup_eq_none_iff {β : Type} (d : List (String × β)) (k : String) :
    dictLookup d k = none ↔ k ∉ dictKeys d := by
  rw [dictLookup, Option.map_eq_none', List.find?_eq_none]
  constructor
  · intro h hk
    obtain ⟨p, hp, he⟩ := List.mem_map.mp hk
    have := h p hp
    simp [he] at this
  · intro h p hp
    simp only [decide_eq_true_eq]
    intro he
    exact h (List.mem_map.mpr ⟨p, hp, he⟩)

theorem dictInsert_eq_append {β : Type} (d : List (String × β)) (k : String) (v : β)
    (h : dictLookup d k = none) : dictInsert d k v = d ++ [(k, v)] := by
  induction d with
  | nil => rfl
  | cons hd tl ih =>
    obtain ⟨k0, v0⟩ := hd
    rw [dictLookup_cons] at h
    by_cases h0 : k0 = k
    · simp [h0] at h
    · rw [if_neg h0] at h
      simp [dictInsert, h0, ih h]

theorem dictKeys_append {β : Type} (d d' : List (String × β)) :
    dictKeys (d ++ d') = dictKeys d ++ dictKeys d' := by
  simp [dictKeys]

theorem dictKeys_append_singleton_nodup {β : Type} (d : List (String × β))
    (k : String) (v : β) (h1 : (dictKeys d).Nodup) (h2 : dictLookup d k = none) :
    (dictKeys (d ++ [(k, v)])).Nodup := by
  rw [dictKeys_append]
  refine List.Nodup.append h1 (by simp [dictKeys]) ?_
  intro a ha hb
  simp [dictKeys] at hb
  subst hb
  exact (dictLookup_eq_none_iff _ _).mp h2 ha

theorem dictLookup_insert {β : Type} (d : List (String × β)) (k : String) (v : β)
    (k' : String) :
    dictLookup (dictInsert d k v) k' = if k' = k then some v else dictLookup d k' := by
  induction d with
  | nil =>
    by_cases h : k' = k
    · subst h; simp [dictInsert, dictLookup_cons]
    · simp [dictInsert, dictLookup_cons, h, Ne.symm h, dictLookup]
  | cons hd tl ih =>
    obtain ⟨k0, v0⟩ := hd
    by_cases h0 : k0 = k
    · subst h0
      by_cases h : k' = k0
      · subst h; simp [dictInsert, dictLookup_cons]
      · simp [dictInsert, dictLookup_cons, h, Ne.symm h]
    · by_cases h1 : k0 = k'
      · subst h1
        simp [dictInsert, h0, dictLookup_cons]
      · simp [dictInsert, h0, dictLookup_cons, h1, ih]

theorem registerAliases_commands (as : List String) (r : CommandRegistry) (n : String) :
    (registerAliases r n as).1.commands = r.commands := by
  induction as generalizing r with
  | nil => rfl
  | cons a rest ih =>
    cases ha : dictLookup r.aliases a with
    | some v => simp [registerAliases, ha]
    | none => simp [registerAliases, ha, ih]

theorem registerAliases_aliases_nodup (as : List String) (r : CommandRegistry)
    (n : String) (h : (dictKeys r.aliases).Nodup) :
    (dictKeys (registerAliases r n as).1.aliases).Nodup := by
  induction as generalizing r with
  | nil => exact h
  | cons a rest ih =>
    cases ha : dictLookup r.aliases a with
    | some v => simpa [registerAliases, ha]
    | none =>
      simp only [registerAliases, ha, Option.isSome_none, Bool.false_eq_true, if_false]
      apply ih
      rw [dictInsert_eq_append _ _ _ ha]
      exact dictKeys_append_singleton_nodup _ _ _ h ha

theorem register_preserves_nodup (r : CommandRegistry) (c : BaseCommand)
    (h1 : (dictKeys r.commands).Nodup) (h2 : (dictKeys r.aliases).Nodup) :
    (dictKeys (register r c).1.commands).Nodup ∧
      (dictKeys (register r c).1.aliases).Nodup := by
  cases h : dictLookup r.commands c.name with
  | some v => simp [register, h, h1, h2]
  | none =>
    simp only [register, h, Option.isSome_none, Bool.false_eq_true, if_false]
    refine ⟨?_, registerAliases_aliases_nodup _ _ _ h2⟩
    rw [registerAliases_commands, dictInsert_eq_append _ _ _ h]
    exact dictKeys_append_singleton_nodup _ _ _ h1 h

theorem registerAliases_ok_sound (as : List String) (r : CommandRegistry) (n : String)
    (h : (registerAliases r n as).2 = none) :
    ∀ a ∈ as, dictLookup r.aliases a = none := by
  induction as generalizing r with
  | nil => simp
  | cons a rest ih =>
    cases ha : dictLookup r.aliases a with
    | some v => simp [registerAliases, ha] at h
    | none =>
      simp only [registerAliases, ha, Option.isSome_none, Bool.false_eq_true,
        if_false] at h
      intro b hb
      rcases List.mem_cons.mp hb with hb | hb
      · exact hb ▸ ha
      · have hb' := ih _ h b hb
        rw [dictLookup_insert] at hb'
        by_cases hba : b = a
        · exact hba ▸ ha
        · simpa [hba] using hb'

end Kontacto

namespace Kontacto

/-- C1: counterexample. Registering `b` with alias `x` into a registry already
holding command `a` with alias `x` fails with the duplicate-alias error, yet
`get_command_names` differs before and after the failed call: the primary
mapping for `b` was inserted before the alias check, so registration is not
atomic. -/
theorem register_alias_failure_not_atomic :
    (register (registerAll [⟨"a", ["x"], "", ""⟩]) ⟨"b", ["x"], "", ""⟩).2
        = some (RegError.duplicateAlias "x")
    ∧ get_command_names
        (register (registerAll [⟨"a", ["x"], "", ""⟩]) ⟨"b", ["x"], "", ""⟩).1
      ≠ get_command_names (registerAll [⟨"a", ["x"], "", ""⟩]) := by
  decide

/-- C1 amended: a duplicate-name failure leaves the registry unchanged, but
whenever the primary name is fresh the primary mapping is inserted before any
alias is checked, so a duplicate-alias failure leaves the primary insertion
(and the alias insertions made before the offending alias) in the registry. -/
theorem register_atomic_only_for_duplicate_name
    (r : CommandRegistry) (c : BaseCommand) :
    ((dictLookup r.commands c.name).isSome →
        register r c = (r, some (RegError.duplicateName c.name)))
    ∧ (dictLookup r.commands c.name = none →
        (register r c).1.commands = dictInsert r.commands c.name c) := by
  constructor
  · intro h; simp [register, h]
  · intro h
    simp only [register, h, Option.isSome_none, Bool.false_eq_true, if_false]
    rw [registerAliases_commands]

/-- Witness: `register_atomic_only_for_duplicate_name` applied at the C1
counterexample state. -/
theorem register_atomic_only_for_duplicate_name_witness :
    (register (registerAll [⟨"a", ["x"], "", ""⟩]) ⟨"b", ["x"], "", ""⟩).1.commands
      = dictInsert (registerAll [⟨"a", ["x"], "", ""⟩]).commands "b"
          ⟨"b", ["x"], "", ""⟩ :=
  (register_atomic_only_for_duplicate_name (registerAll [⟨"a", ["x"], "", ""⟩])
    ⟨"b", ["x"], "", ""⟩).2 (by decide)

/-- C2: counterexample. Starting from an empty registry, registering command
`a` and then command `b` with alias `a` raises no error — the cross-collision
between a new alias and an existing primary name is not checked — and the
union of primary names and aliases returned by `get_command_names` then
contains `a` twice. -/
theorem register_cross_collision_not_detected :
    (register (registerAll [⟨"a", [], "", ""⟩]) ⟨"b", ["a"], "", ""⟩).2 = none
    ∧ ¬ (get_command_names
          (register (registerAll [⟨"a", [], "", ""⟩]) ⟨"b", ["a"], "", ""⟩).1).Nodup := by
  decide

/-- C2 amended: after every sequence of `register` calls from an empty
registry the primary-name keys are pairwise distinct and the alias keys are
pairwise distinct (a successful `register` implies its primary name was fresh
among primary names and each alias fresh among aliases), but name/alias
cross-collisions are not detected, so the union of the two key sets may
contain duplicates. -/
theorem register_keys_separately_unique :
    (∀ cs : List BaseCommand,
        (dictKeys (registerAll cs).commands).Nodup ∧
          (dictKeys (registerAll cs).aliases).Nodup)
    ∧ (∀ (r : CommandRegistry) (c : BaseCommand), (register r c).2 = none →
        dictLookup r.commands c.name = none ∧
          ∀ a ∈ c.aliases, dictLookup r.aliases a = none) := by
  constructor
  · intro cs
    suffices h : ∀ (r : CommandRegistry), (dictKeys r.commands).Nodup →
        (dictKeys r.aliases).Nodup →
        (dictKeys (cs.foldl (fun r c => (register r c).1) r).commands).Nodup ∧
          (dictKeys (cs.foldl (fun r c => (register r c).1) r).aliases).Nodup by
      exact h emptyRegistry (by simp [emptyRegistry, dictKeys])
        (by simp [emptyRegistry, dictKeys])
    induction cs with
    | nil => exact fun r h1 h2 => ⟨h1, h2⟩
    | cons c rest ih =>
      intro r h1 h2
      obtain ⟨g1, g2⟩ := register_preserves_nodup r c h1 h2
      exact ih _ g1 g2
  · intro r c h
    cases hn : dictLookup r.commands c.name with
    | some v => simp [register, hn] at h
    | none =>
      refine ⟨rfl, ?_⟩
      simp only [register, hn, Option.isSome_none, Bool.false_eq_true, if_false] at h
      have h' := registerAliases_ok_sound _ _ _ h
      exact fun a ha => h' a ha

/-- Witness: `register_keys_separately_unique` at a concrete successful
registration. -/
theorem register_keys_separately_unique_witness :
    dictLookup emptyRegistry.aliases "x" = none :=
  ((register_keys_separately_unique.2 emptyRegistry ⟨"a", ["x"], "", ""⟩
    (by decide)).2) "x" (by decide)

end Kontacto

namespace Kontacto

theorem lcsLen_nil_left (t : List Char) : lcsLen [] t = 0 := by simp [lcsLen]

theorem lcsLen_nil_right (s : List Char) : lcsLen s [] = 0 := by
  cases s <;> simp [lcsLen]

theorem lcsLen_symm_aux :
    ∀ (n : Nat) (s t : List Char), s.length + t.length ≤ n →
      lcsLen s t = lcsLen t s := by
  intro n
  induction n with
  | zero =>
    intro s t h
    cases s <;> cases t <;> simp_all [lcsLen]
  | succ n ih =>
    intro s t h
    match s, t with
    | [], t => rw [lcsLen_nil_left, lcsLen_nil_right]
    | a :: as, [] => rw [lcsLen_nil_left, lcsLen_nil_right]
    | a :: as, b :: bs =>
      simp only [List.length_cons] at h
      simp only [lcsLen]
      by_cases hab : a = b
      · subst hab
        simp [ih as bs (by omega)]
      · have hba : ¬ b = a := fun e => hab e.symm
        have h1 := ih (a :: as) bs (by simp; omega)
        have h2 := ih as (b :: bs) (by simp; omega)
        simp [hab, hba, h1, h2, Nat.max_comm]

theorem lcsLen_symm (s t : List Char) : lcsLen s t = lcsLen t s :=
  lcsLen_symm_aux (s.length + t.length) s t le_rfl

theorem lcsLen_le_left_aux :
    ∀ (n : Nat) (s t : List Char), s.length + t.length ≤ n →
      lcsLen s t ≤ s.length := by
  intro n
  induction n with
  | zero =>
    intro s t h
    cases s <;> cases t <;> simp_all [lcsLen]
  | succ n ih =>
    intro s t h
    match s, t with
    | [], t => simp [lcsLen_nil_left]
    | a :: as, [] => simp [lcsLen_nil_right]
    | a :: as, b :: bs =>
      simp only [List.length_cons] at h
      simp only [lcsLen]
      by_cases hab : a = b
      · subst hab
        have := ih as bs (by omega)
        simp
        omega
      · have h1 := ih (a :: as) bs (by simp; omega)
        have h2 := ih as (b :: bs) (by simp; omega)
        simp only [List.length_cons] at h1
        simp [hab]
        constructor
        · simpa using h1
        · omega

theorem lcsLen_le_left (s t : List Char) : lcsLen s t ≤ s.length :=
  lcsLen_le_left_aux (s.length + t.length) s t le_rfl

theorem lcsLen_le_right (s t : List Char) : lcsLen s t ≤ t.length := by
  rw [lcsLen_symm]
  exact lcsLen_le_left t s

theorem lcsLen_self (s : List Char) : lcsLen s s = s.length := by
  induction s with
  | nil => simp [lcsLen]
  | cons a as ih => simp [lcsLen, ih]

theorem fuzzScore_nonneg (s t : String) : 0 ≤ fuzzScore s t := by
  unfold fuzzScore
  split
  · norm_num
  · positivity

theorem fuzzScore_le_100 (s t : String) : fuzzScore s t ≤ 100 := by
  unfold fuzzScore
  split
  · norm_num
  · rename_i h
    have hL1 := lcsLen_le_left s.toList t.toList
    have hL2 := lcsLen_le_right s.toList t.toList
    have hpos : (0 : ℚ) < (s.toList.length : ℚ) + (t.toList.length : ℚ) := by
      have : 0 < s.toList.length + t.toList.length := Nat.pos_of_ne_zero h
      exact_mod_cast this
    rw [div_le_iff₀ hpos]
    have hle : ((2 : ℚ)) * (lcsLen s.toList t.toList : ℚ) ≤
        (s.toList.length : ℚ) + (t.toList.length : ℚ) := by
      have : 2 * lcsLen s.toList t.toList ≤ s.toList.length + t.toList.length := by
        omega
      exact_mod_cast this
    nlinarith

theorem fuzzScore_comm (s t : String) : fuzzScore s t = fuzzScore t s := by
  unfold fuzzScore
  rw [lcsLen_symm, Nat.add_comm s.toList.length t.toList.length,
    add_comm (s.toList.length : ℚ) (t.toList.length : ℚ)]

theorem fuzzScore_self (s : String) : fuzzScore s s = 100 := by
  unfold fuzzScore
  split
  · rfl
  · rename_i h
    rw [lcsLen_self]
    have h0 : s.toList.length ≠ 0 := by omega
    have hn : (s.toList.length : ℚ) ≠ 0 := Nat.cast_ne_zero.mpr h0
    have hn2 : (s.length : ℚ) ≠ 0 := by simpa using hn
    field_simp
    ring

end Kontacto

namespace Kontacto

/-- C7: the similarity metric is total, bounded in `[0,1]`, symmetric, and
case-insensitive — strings equal up to case score exactly `1`, two empty
strings score `1`, empty versus non-empty scores `0`, and
`similarity "abc" "xyz" < 0.4`. -/
theorem similarity_metric_properties :
    (∀ a b : String,
        0 ≤ similarity a b ∧ similarity a b ≤ 1
        ∧ similarity a b = similarity b a
        ∧ (pyLower a = pyLower b → similarity a b = 1))
    ∧ similarity "" "" = 1
    ∧ (∀ b : String, b ≠ "" → similarity "" b = 0)
    ∧ similarity "abc" "xyz" < 2/5 := by
  refine ⟨fun a b => ⟨?_, ?_, ?_, ?_⟩, ?_, ?_, ?_⟩
  · exact div_nonneg (fuzzScore_nonneg _ _) (by norm_num)
  · exact (div_le_one (by norm_num)).mpr (fuzzScore_le_100 _ _)
  · unfold similarity
    rw [fuzzScore_comm]
  · intro h
    unfold similarity
    rw [h, fuzzScore_self]
    norm_num
  · rw [show similarity "" "" = (100 : ℚ)/100 from rfl]
    norm_num
  · intro b hb
    have hbl : b.toList ≠ [] := by
      intro hc
      exact hb (String.ext hc)
    have hlen : (pyLower b).length ≠ 0 := by
      have he : (pyLower b).length = b.toList.length := by
        rw [show (pyLower b).length = (b.toList.map Char.toLower).length from rfl,
          List.length_map]
      rw [he]
      intro hc
      exact hbl (List.length_eq_zero.mp hc)
    have hpl : pyLower "" = "" := rfl
    have h0 : ("" : String).toList = ([] : List Char) := rfl
    unfold similarity fuzzScore
    rw [hpl]
    rw [if_neg (by simp [h0, hlen])]
    simp [h0, lcsLen_nil_left]
  · have h1 : pyLower "abc" = "abc" := rfl
    have h2 : pyLower "xyz" = "xyz" := rfl
    have h3 : lcsLen "abc".toList "xyz".toList = 0 := by
      rw [show "abc".toList = ['a','b','c'] from rfl,
        show "xyz".toList = ['x','y','z'] from rfl]
      simp [lcsLen]
    unfold similarity fuzzScore
    rw [h1, h2, h3]
    rw [show ("abc" : String).toList.length = 3 from rfl,
      show ("xyz" : String).toList.length = 3 from rfl]
    norm_num

/-- Witness: `similarity_metric_properties` applied at concrete strings. -/
theorem similarity_metric_properties_witness :
    similarity "AbC" "abc" = 1 ∧ similarity "" "xy" = 0 :=
  ⟨(similarity_metric_properties.1 "AbC" "abc").2.2.2 rfl,
   similarity_metric_properties.2.2.1 "xy" (by decide)⟩

end Kontacto

namespace Kontacto

theorem findBestLoop_no_pick (ql : String) (thr : ℚ) :
    ∀ (l : List String) (best : Option String) (bR : ℚ),
      (∀ c ∈ l, fuzzScore ql (pyLower c) / 100 ≤ bR ∨
        fuzzScore ql (pyLower c) / 100 < thr) →
      findBestLoop ql thr l best bR = best := by
  intro l
  induction l with
  | nil => intro best bR _; rfl
  | cons c0 rest ih =>
    intro best bR h
    have hc := h c0 (List.mem_cons_self _ _)
    have hcond : ¬(bR < fuzzScore ql (pyLower c0) / 100 ∧
        thr ≤ fuzzScore ql (pyLower c0) / 100) := by
      rcases hc with hc | hc
      · exact fun hx => absurd hc (not_le.mpr hx.1)
      · exact fun hx => absurd hc (not_lt.mpr hx.2)
    simp only [findBestLoop, if_neg hcond]
    exact ih best bR (fun c hcm => h c (List.mem_cons_of_mem _ hcm))

theorem findBestLoop_some_ne_none (ql : String) (thr : ℚ) :
    ∀ (l : List String) (b : String) (bR : ℚ),
      findBestLoop ql thr l (some b) bR ≠ none := by
  intro l
  induction l with
  | nil => intro b bR h; exact Option.noConfusion h
  | cons c0 rest ih =>
    intro b bR
    simp only [findBestLoop]
    split
    · exact ih c0 _
    · exact ih b bR

theorem findBestLoop_picks (ql : String) (thr : ℚ) (h0 : 0 < thr) :
    ∀ (l : List String),
      (∃ c ∈ l, thr ≤ fuzzScore ql (pyLower c) / 100) →
      findBestLoop ql thr l none 0 ≠ none := by
  intro l
  induction l with
  | nil => rintro ⟨c, hc, -⟩; exact absurd hc (List.not_mem_nil c)
  | cons c0 rest ih =>
    rintro ⟨c, hc, hthr⟩
    simp only [findBestLoop]
    split
    · exact findBestLoop_some_ne_none ql thr rest c0 _
    · rename_i hcond
      rcases List.mem_cons.mp hc with rfl | hc
      · exfalso
        apply hcond
        refine ⟨lt_of_lt_of_le h0 hthr, hthr⟩
      · exact ih ⟨c, hc, hthr⟩

theorem findBestLoop_some_spec (ql : String) (thr : ℚ) :
    ∀ (l : List String) (best : Option String) (bR : ℚ) (c : String),
      findBestLoop ql thr l best bR = some c →
      (best = some c ∧ ∀ x ∈ l, fuzzScore ql (pyLower x) / 100 ≤ bR ∨
          fuzzScore ql (pyLower x) / 100 < thr)
      ∨ (c ∈ l ∧ thr ≤ fuzzScore ql (pyLower c) / 100 ∧
          bR < fuzzScore ql (pyLower c) / 100 ∧
          ∀ x ∈ l, fuzzScore ql (pyLower x) / 100 < thr ∨
            fuzzScore ql (pyLower x) / 100 ≤ fuzzScore ql (pyLower c) / 100) := by
  intro l
  induction l with
  | nil =>
    intro best bR c h
    exact Or.inl ⟨h, by simp⟩
  | cons c0 rest ih =>
    intro best bR c h
    simp only [findBestLoop] at h
    by_cases hcond : bR < fuzzScore ql (pyLower c0) / 100 ∧
        thr ≤ fuzzScore ql (pyLower c0) / 100
    · rw [if_pos hcond] at h
      rcases ih _ _ _ h with ⟨he, hall⟩ | ⟨hmem, hthr, hbr, hall⟩
      · have hc0 : c0 = c := Option.some.inj he
        subst hc0
        refine Or.inr ⟨List.mem_cons_self _ _, hcond.2, hcond.1, ?_⟩
        intro x hx
        rcases List.mem_cons.mp hx with rfl | hx
        · exact Or.inr le_rfl
        · rcases hall x hx with hle | hlt
          · exact Or.inr hle
          · exact Or.inl hlt
      · refine Or.inr ⟨List.mem_cons_of_mem _ hmem, hthr, lt_trans hcond.1 hbr, ?_⟩
        intro x hx
        rcases List.mem_cons.mp hx with rfl | hx
        · exact Or.inr (le_of_lt hbr)
        · exact hall x hx
    · rw [if_neg hcond] at h
      have hc0 : fuzzScore ql (pyLower c0) / 100 ≤ bR ∨
          fuzzScore ql (pyLower c0) / 100 < thr := by
        rcases not_and_or.mp hcond with hx | hx
        · exact Or.inl (not_lt.mp hx)
        · exact Or.inr (not_le.mp hx)
      rcases ih _ _ _ h with ⟨he, hall⟩ | ⟨hmem, hthr, hbr, hall⟩
      · refine Or.inl ⟨he, ?_⟩
        intro x hx
        rcases List.mem_cons.mp hx with rfl | hx
        · exact hc0
        · exact hall x hx
      · refine Or.inr ⟨List.mem_cons_of_mem _ hmem, hthr, hbr, ?_⟩
        intro x hx
        rcases List.mem_cons.mp hx with rfl | hx
        · rcases hc0 with hle | hlt
          · exact Or.inr (le_trans hle (le_of_lt hbr))
          · exact Or.inl hlt
        · exact hall x hx

end Kontacto

namespace Kontacto

theorem findBestLoop_find_max (ql : String) (thr : ℚ) (M : ℚ)
    (hM : thr ≤ M) :
    ∀ (l : List String) (best : Option String) (bR : ℚ), bR < M →
      (∃ c ∈ l, fuzzScore ql (pyLower c) / 100 = M) →
      (∀ c ∈ l, fuzzScore ql (pyLower c) / 100 ≤ M) →
      findBestLoop ql thr l best bR =
        l.find? (fun c => decide (fuzzScore ql (pyLower c) / 100 = M)) := by
  intro l
  induction l with
  | nil =>
    rintro best bR _ ⟨c, hc, -⟩ _
    exact absurd hc (List.not_mem_nil c)
  | cons c0 rest ih =>
    rintro best bR hbR ⟨c, hc, hcM⟩ hall
    by_cases hc0 : fuzzScore ql (pyLower c0) / 100 = M
    · have hcond : bR < fuzzScore ql (pyLower c0) / 100 ∧
          thr ≤ fuzzScore ql (pyLower c0) / 100 := ⟨hc0 ▸ hbR, hc0 ▸ hM⟩
      simp only [findBestLoop, if_pos hcond]
      rw [List.find?_cons_of_pos _ (by simp [hc0])]
      apply findBestLoop_no_pick
      intro x hx
      refine Or.inl ?_
      rw [hc0]
      exact hall x (List.mem_cons_of_mem _ hx)
    · rw [List.find?_cons_of_neg _ (by simp [hc0])]
      have hex : ∃ x ∈ rest, fuzzScore ql (pyLower x) / 100 = M := by
        rcases List.mem_cons.mp hc with rfl | hcr
        · exact absurd hcM hc0
        · exact ⟨c, hcr, hcM⟩
      have hall' : ∀ x ∈ rest, fuzzScore ql (pyLower x) / 100 ≤ M :=
        fun x hx => hall x (List.mem_cons_of_mem _ hx)
      have hlt : fuzzScore ql (pyLower c0) / 100 < M :=
        lt_of_le_of_ne (hall c0 (List.mem_cons_self _ _)) hc0
      simp only [findBestLoop]
      split
      · exact ih (some c0) _ hlt hex hall'
      · exact ih best bR hbR hex hall'

theorem foldr_max_ub (l : List ℚ) (x : ℚ) (hx : x ∈ l) : x ≤ l.foldr max 0 := by
  induction l with
  | nil => exact absurd hx (List.not_mem_nil x)
  | cons a rest ih =>
    rcases List.mem_cons.mp hx with rfl | hx
    · exact le_max_left _ _
    · exact le_trans (ih hx) (le_max_right _ _)

theorem foldr_max_attained (l : List ℚ) (hne : l ≠ []) (hnn : ∀ x ∈ l, 0 ≤ x) :
    l.foldr max 0 ∈ l := by
  induction l with
  | nil => exact absurd rfl hne
  | cons a rest ih =>
    cases hr : rest with
    | nil =>
      simp only [List.foldr]
      have : max a 0 = a := max_eq_left (hnn a (List.mem_cons_self _ _))
      simp [hr, this]
    | cons b rest' =>
      subst hr
      rcases le_total a (List.foldr max 0 (b :: rest')) with hle | hle
      · have hm := ih (List.cons_ne_nil _ _)
          (fun x hx => hnn x (List.mem_cons_of_mem _ hx))
        rw [List.foldr_cons, max_eq_right hle]
        exact List.mem_cons_of_mem _ hm
      · rw [List.foldr_cons, max_eq_left hle]
        exact List.mem_cons_self _ _

/-- C6: the `find_best_match` contract at any positive threshold (the source
default is `0.6`): the result is `none` exactly when no candidate's
similarity meets the threshold, and a returned candidate meets the threshold
and has the greatest similarity of all candidates. -/
theorem find_best_match_contract (query : String) (candidates : List String)
    (threshold : ℚ) (h0 : 0 < threshold) :
    (find_best_match query candidates threshold = none ↔
      ∀ c ∈ candidates, similarity query c < threshold)
    ∧ (∀ c, find_best_match query candidates threshold = some c →
        c ∈ candidates ∧ threshold ≤ similarity query c ∧
          ∀ x ∈ candidates, similarity query x ≤ similarity query c) := by
  by_cases hnil : candidates = []
  · subst hnil
    simp [find_best_match]
  · constructor
    · constructor
      · intro hnone c hc
        by_contra hle
        push_neg at hle
        rw [find_best_match, if_neg hnil] at hnone
        exact findBestLoop_picks (pyLower query) threshold h0 candidates
          ⟨c, hc, hle⟩ hnone
      · intro hall
        rw [find_best_match, if_neg hnil]
        apply findBestLoop_no_pick
        intro c hc
        exact Or.inr (hall c hc)
    · intro c hc
      rw [find_best_match, if_neg hnil] at hc
      rcases findBestLoop_some_spec _ _ _ _ _ _ hc with ⟨he, -⟩ |
        ⟨hmem, hthr, -, hall⟩
      · exact absurd he (by simp)
      · refine ⟨hmem, hthr, ?_⟩
        intro x hx
        rcases hall x hx with hlt | hle
        · exact le_trans (le_of_lt hlt) hthr
        · exact hle

/-- C10: when the greatest similarity meets a positive threshold,
`find_best_match` returns the earliest candidate attaining it — a later
candidate replaces the running best only on a strictly greater score. -/
theorem find_best_match_returns_earliest_max (query : String)
    (candidates : List String) (threshold : ℚ) (h0 : 0 < threshold)
    (hM : threshold ≤ maxSimilarity query candidates) :
    find_best_match query candidates threshold =
      candidates.find?
        (fun c => decide (similarity query c = maxSimilarity query candidates)) := by
  have hnil : candidates ≠ [] := by
    rintro rfl
    rw [show maxSimilarity query [] = 0 from rfl] at hM
    linarith
  have hmem : maxSimilarity query candidates ∈
      candidates.map (fun c => similarity query c) := by
    apply foldr_max_attained
    · simpa using hnil
    · intro x hx
      obtain ⟨c, -, rfl⟩ := List.mem_map.mp hx
      exact div_nonneg (fuzzScore_nonneg _ _) (by norm_num)
  obtain ⟨c, hcmem, hceq⟩ := List.mem_map.mp hmem
  rw [find_best_match, if_neg hnil]
  exact findBestLoop_find_max (pyLower query) threshold
    (maxSimilarity query candidates) hM candidates none 0
    (lt_of_lt_of_le h0 hM) ⟨c, hcmem, hceq⟩
    (fun x hx => foldr_max_ub _ _ (List.mem_map.mpr ⟨x, hx, rfl⟩))

end Kontacto

namespace Kontacto

theorem fuzzScore_ab_ab : fuzzScore "ab" "ab" = 100 := by
  have e1 : "ab".toList = ['a', 'b'] := rfl
  have hl : lcsLen ['a', 'b'] ['a', 'b'] = 2 := by simp [lcsLen]
  simp only [fuzzScore, e1, hl]
  norm_num

theorem fuzzScore_ab_cd : fuzzScore "ab" "cd" = 0 := by
  have e1 : "ab".toList = ['a', 'b'] := rfl
  have e2 : "cd".toList = ['c', 'd'] := rfl
  have hl : lcsLen ['a', 'b'] ['c', 'd'] = 0 := by simp [lcsLen]
  simp only [fuzzScore, e1, e2, hl]
  norm_num

theorem find_best_match_ab_eval :
    find_best_match "ab" ["ab", "cd"] (3/5) = some "ab" := by
  have hp1 : pyLower "ab" = "ab" := rfl
  have hp2 : pyLower "cd" = "cd" := rfl
  rw [find_best_match, if_neg (by decide)]
  simp only [findBestLoop, hp1, hp2, fuzzScore_ab_ab, fuzzScore_ab_cd]
  norm_num

theorem maxSimilarity_ab_eval : maxSimilarity "ab" ["ab", "cd"] = 1 := by
  have hp1 : pyLower "ab" = "ab" := rfl
  have hp2 : pyLower "cd" = "cd" := rfl
  simp only [maxSimilarity, similarity, List.map, List.foldr, hp1, hp2,
    fuzzScore_ab_ab, fuzzScore_ab_cd]
  norm_num

/-- Witness: `find_best_match_contract` at a concrete query and candidate
list where the best match is returned. -/
theorem find_best_match_contract_witness :
    similarity "ab" "cd" ≤ similarity "ab" "ab" :=
  ((find_best_match_contract "ab" ["ab", "cd"] (3/5) (by norm_num)).2 "ab"
    find_best_match_ab_eval).2.2 "cd" (by simp)

/-- Witness: `find_best_match_returns_earliest_max` at a concrete query and
candidate list whose greatest similarity meets the threshold. -/
theorem find_best_match_returns_earliest_max_witness :
    find_best_match "ab" ["ab", "cd"] (3/5) =
      ["ab", "cd"].find?
        (fun c => decide (similarity "ab" c = maxSimilarity "ab" ["ab", "cd"])) :=
  find_best_match_returns_earliest_max "ab" ["ab", "cd"] (3/5) (by norm_num)
    (by rw [maxSimilarity_ab_eval]; norm_num)

end Kontacto

namespace Kontacto

theorem sorted_pairs_pairwise (pairs : List (String × ℚ)) :
    (pairs.mergeSort (fun a b => b.2 ≤ a.2)).Pairwise
      (fun a b : String × ℚ => b.2 ≤ a.2) := by
  have h := @List.sorted_mergeSort (String × ℚ)
    (fun a b : String × ℚ => decide (b.2 ≤ a.2))
    (fun a b c h1 h2 => by
      simp only [decide_eq_true_eq] at h1 h2 ⊢
      exact le_trans h2 h1)
    (fun a b => by
      simp only [Bool.or_eq_true, decide_eq_true_eq]
      exact le_total b.2 a.2)
    pairs
  refine h.imp ?_
  intro a b hab
  simpa using hab

/-- C5: the suggestion engine's two passes. If any candidate has the
lowercased query as a prefix, the result is the first 3 such candidates in
original candidate order (a sublist of the candidate list, not re-sorted by
similarity); only when no prefix match exists does it return at most 3
candidates, each with similarity strictly above `0.4`, in descending
similarity order. The spec's example is included. -/
theorem get_command_suggestions_spec :
    (∀ (input : String) (available : List String),
      (available.filter (fun c => is_partial_match input c) ≠ [] →
        get_command_suggestions input available
            = (available.filter (fun c => is_partial_match input c)).take 3
        ∧ (get_command_suggestions input available).Sublist available)
      ∧ (available.filter (fun c => is_partial_match input c) = [] →
        (get_command_suggestions input available).length ≤ 3
        ∧ (∀ c ∈ get_command_suggestions input available,
            (2 : ℚ)/5 < similarity input c)
        ∧ (get_command_suggestions input available).Pairwise
            (fun a b => similarity input b ≤ similarity input a)))
    ∧ get_command_suggestions "add" ["help", "add-contact", "list-contacts", "add-note"]
        = ["add-contact", "add-note"] := by
  refine ⟨fun input available => ⟨?_, ?_⟩, by decide⟩
  · intro h
    refine ⟨by simp only [get_command_suggestions, if_pos h], ?_⟩
    simp only [get_command_suggestions, if_pos h]
    exact (List.take_sublist _ _).trans (List.filter_sublist _)
  · intro h
    by_cases hnil : available = []
    · subst hnil
      simp [get_command_suggestions, find_suggestions] at h ⊢
    · have hres : get_command_suggestions input available =
          ((((available.map
                (fun c => (c, fuzzScore (pyLower input) (pyLower c) / 100))).mergeSort
              (fun a b => b.2 ≤ a.2)).take 3).filter
            (fun p => (2 : ℚ)/5 < p.2)).map Prod.fst := by
        simp only [get_command_suggestions, h, ne_eq, not_true_eq_false, if_false,
          find_suggestions, if_neg hnil]
      have hpair_mem : ∀ p ∈ (((available.map
              (fun c => (c, fuzzScore (pyLower input) (pyLower c) / 100))).mergeSort
            (fun a b => b.2 ≤ a.2)).take 3),
          p.2 = similarity input p.1 := by
        intro p hp
        have hp2 := List.mem_of_mem_take hp
        have hp3 : p ∈ available.map
            (fun c => (c, fuzzScore (pyLower input) (pyLower c) / 100)) :=
          (List.mergeSort_perm _ _).mem_iff.mp hp2
        obtain ⟨c, _, he⟩ := List.mem_map.mp hp3
        rw [← he]
        rfl
      refine ⟨?_, ?_, ?_⟩
      · rw [hres, List.length_map]
        exact le_trans (List.length_filter_le _ _) (List.length_take_le _ _)
      · intro c hc
        rw [hres] at hc
        obtain ⟨p, hpf, rfl⟩ := List.mem_map.mp hc
        have hlt : (2 : ℚ)/5 < p.2 := by
          have := List.of_mem_filter hpf
          simpa using this
        have hpmem := List.mem_of_mem_filter hpf
        rw [← hpair_mem p hpmem]
        exact hlt
      · rw [hres]
        rw [List.pairwise_map]
        have hpw := (sorted_pairs_pairwise
          (available.map
            (fun c => (c, fuzzScore (pyLower input) (pyLower c) / 100)))).sublist
          (List.take_sublist 3 _)
        refine List.Pairwise.imp_of_mem ?_ (hpw.sublist (List.filter_sublist _))
        intro a b ha hb hab
        have ha' := List.mem_of_mem_filter ha
        have hb' := List.mem_of_mem_filter hb
        rw [← hpair_mem a ha', ← hpair_mem b hb']
        exact hab

/-- Witness: `get_command_suggestions_spec` at a concrete input with a prefix
match. -/
theorem get_command_suggestions_spec_witness :
    get_command_suggestions "ad" ["add", "zzz"]
      = (["add", "zzz"].filter (fun c => is_partial_match "ad" c)).take 3 :=
  ((get_command_suggestions_spec.1 "ad" ["add", "zzz"]).1 (by decide)).1

end Kontacto

namespace Kontacto

/-- C3: exception containment at the dispatcher boundary. When the resolved
command's `execute` raises an ordinary exception, `process_command` returns
normally with the "Error executing command: <message>" outcome; when it
raises the exit command's `SystemExit`, the error propagates out of
`process_command` uncaught. -/
theorem process_command_contains_execute_failures (r : CommandRegistry)
    (validate : BaseCommand → List String → Bool)
    (exec : BaseCommand → List String → Except PyError Unit)
    (input_text : String) (command : BaseCommand)
    (h1 : pyStrip input_text.toList ≠ [])
    (h2 : (parse_command_input input_text (buildCommandAliases r)).1 ≠ "")
    (h3 : r.get (parse_command_input input_text (buildCommandAliases r)).1
      = some command)
    (h4 : validate command (parse_command_input input_text (buildCommandAliases r)).2
      = true) :
    (∀ m, exec command (parse_command_input input_text (buildCommandAliases r)).2
        = .error (.exception m) →
      process_command r validate exec input_text
        = .ok (.errorExecuting ("Error executing command: " ++ m)))
    ∧ (∀ code, exec command (parse_command_input input_text (buildCommandAliases r)).2
        = .error (.systemExit code) →
      process_command r validate exec input_text = .error (.systemExit code)) := by
  constructor
  · intro m hm
    simp [process_command, h2, h3, h4, hm]
    exact h1
  · intro code hc
    simp [process_command, h2, h3, h4, hc]
    exact h1

/-- Witness: `process_command_contains_execute_failures` on a registry holding
the exit command, whose `execute` raises `SystemExit 0`: the exit propagates
out of `process_command`. -/
theorem process_command_contains_execute_failures_witness :
    process_command (register emptyRegistry exitCommand).1 (fun _ _ => true)
      (fun _ _ => exitCommandExecute) "exit" = .error (.systemExit 0) :=
  (process_command_contains_execute_failures (register emptyRegistry exitCommand).1
    (fun _ _ => true) (fun _ _ => exitCommandExecute) "exit" exitCommand
    (by decide) (by decide) (by decide) rfl).2 0 rfl

/-- C4: an input whose (parsed, alias-resolved) command token resolves to no
registered command yields the unknown-command outcome, and the suggestion it
carries — when present — has similarity above `0.4` with the token (it in
fact meets the `0.6` best-match threshold) or is a prefix match. -/
theorem process_command_unknown_outcome (r : CommandRegistry)
    (validate : BaseCommand → List String → Bool)
    (exec : BaseCommand → List String → Except PyError Unit)
    (input_text : String)
    (h1 : pyStrip input_text.toList ≠ [])
    (h2 : (parse_command_input input_text (buildCommandAliases r)).1 ≠ "")
    (h3 : r.get (parse_command_input input_text (buildCommandAliases r)).1 = none) :
    process_command r validate exec input_text
      = .ok (.unknown (parse_command_input input_text (buildCommandAliases r)).1
          (find_best_match (parse_command_input input_text (buildCommandAliases r)).1
            (get_command_names r) (3/5)))
    ∧ ∀ s, find_best_match (parse_command_input input_text (buildCommandAliases r)).1
          (get_command_names r) (3/5) = some s →
        (2 : ℚ)/5 < similarity
            (parse_command_input input_text (buildCommandAliases r)).1 s
        ∨ is_partial_match
            (parse_command_input input_text (buildCommandAliases r)).1 s := by
  constructor
  · simp [process_command, h2, h3]
    exact h1
  · intro s hs
    left
    rw [find_best_match] at hs
    by_cases hnil : get_command_names r = []
    · rw [if_pos hnil] at hs
      exact absurd hs (by simp)
    · rw [if_neg hnil] at hs
      rcases findBestLoop_some_spec _ _ _ _ _ _ hs with ⟨he, -⟩ | ⟨-, hthr, -, -⟩
      · exact absurd he (by simp)
      · have : (3 : ℚ)/5 ≤ similarity
            (parse_command_input input_text (buildCommandAliases r)).1 s := hthr
        linarith

/-- Witness: `process_command_unknown_outcome` on an empty registry and the
input `foo`. -/
theorem process_command_unknown_outcome_witness :
    process_command emptyRegistry (fun _ _ => true) (fun _ _ => Except.ok ()) "foo"
      = Except.ok (Outcome.unknown
          (parse_command_input "foo" (buildCommandAliases emptyRegistry)).1
          (find_best_match
            (parse_command_input "foo" (buildCommandAliases emptyRegistry)).1
            (get_command_names emptyRegistry) (3/5))) :=
  (process_command_unknown_outcome emptyRegistry (fun _ _ => true)
    (fun _ _ => Except.ok ()) "foo" (by decide) (by decide) (by decide)).1

end Kontacto

namespace Kontacto

theorem plainChar_spec (c : Char) (h : plainChar c = true) :
    pyStripSpace c = false ∧ shlexWS c = false ∧ isQuoteChar c = false ∧ c ≠ '\\' := by
  simp only [plainChar, Bool.and_eq_true, Bool.not_eq_true', decide_eq_true_eq] at h
  exact ⟨h.1.1.1, h.1.1.2, h.1.2, h.2⟩

theorem shlexLoop_word_plain (w : List Char) :
    ∀ (rest tok : List Char) (q : Bool) (acc : List String),
      (∀ c ∈ w, plainChar c = true) →
      shlexLoop (w ++ rest) .word tok q acc = shlexLoop rest .word (tok ++ w) q acc := by
  induction w with
  | nil => intro rest tok q acc _; simp
  | cons c w' ih =>
    intro rest tok q acc h
    obtain ⟨hws, hws2, hq, hb⟩ := plainChar_spec c (h c (List.mem_cons_self _ _))
    have hb' : ¬ (c = '\\') := hb
    simp only [List.cons_append, shlexLoop, hws2, Bool.false_eq_true, if_false,
      hq, if_neg hb']
    rw [show tok ++ c :: w' = (tok ++ [c]) ++ w' by simp]
    exact ih rest (tok ++ [c]) q acc (fun x hx => h x (List.mem_cons_of_mem _ hx))

theorem shlexLoop_dq_interior (i : List Char) :
    ∀ (rest tok : List Char) (acc : List String),
      (∀ c ∈ i, c ≠ '"' ∧ c ≠ '\\') →
      shlexLoop (i ++ rest) (.quote '"') tok true acc
        = shlexLoop rest (.quote '"') (tok ++ i) true acc := by
  induction i with
  | nil => intro rest tok acc _; simp
  | cons c i' ih =>
    intro rest tok acc h
    obtain ⟨hq, hb⟩ := h c (List.mem_cons_self _ _)
    simp only [List.cons_append, shlexLoop, if_neg hq]
    rw [if_neg (by simp [hb])]
    rw [show tok ++ c :: i' = (tok ++ [c]) ++ i' by simp]
    exact ih rest (tok ++ [c]) acc (fun x hx => h x (List.mem_cons_of_mem _ hx))

theorem shlexLoop_word_space_quote (X tok : List Char) (q : Bool) (acc : List String)
    (hc : tok ≠ [] ∨ q = true) :
    shlexLoop (' ' :: '"' :: X) .word tok q acc
      = shlexLoop X (.quote '"') [] true (String.mk tok :: acc) := by
  simp only [shlexLoop]
  rw [if_pos (show shlexWS ' ' = true from rfl), if_pos hc]
  rfl

theorem shlexLoop_quote_close (X tok : List Char) (q : Bool) (acc : List String) :
    shlexLoop ('"' :: X) (.quote '"') tok q acc = shlexLoop X .word tok true acc := by
  rfl

theorem shlexLoop_quoted_args (argsC : List (List Char)) :
    ∀ (tok : List Char) (q : Bool) (acc : List String),
      (∀ a ∈ argsC, ∀ c ∈ a, c ≠ '"' ∧ c ≠ '\\') →
      (tok ≠ [] ∨ q = true) →
      shlexLoop (quotedArgsChars argsC) .word tok q acc
        = some ((String.mk tok :: acc).reverse
            ++ argsC.map (fun a => String.mk a)) := by
  induction argsC with
  | nil =>
    intro tok q acc _ hc
    simp only [quotedArgsChars, shlexLoop]
    rw [if_pos (by simpa using hc)]
    simp
  | cons a rest ih =>
    intro tok q acc hargs hc
    show shlexLoop (' ' :: '"' :: (a ++ '"' :: quotedArgsChars rest)) .word tok q acc = _
    rw [shlexLoop_word_space_quote _ _ _ _ hc]
    rw [shlexLoop_dq_interior a _ _ _ (hargs a (List.mem_cons_self _ _))]
    rw [List.nil_append, shlexLoop_quote_close]
    rw [ih a true (String.mk tok :: acc)
      (fun x hx => hargs x (List.mem_cons_of_mem _ hx)) (Or.inr rfl)]
    simp

end Kontacto

namespace Kontacto

theorem head?_reverse_eq_getLast? (l : List Char) : l.reverse.head? = l.getLast? := by
  induction l with
  | nil => rfl
  | cons a t ih =>
    cases ht : t with
    | nil => rfl
    | cons b t' =>
      rw [List.reverse_cons, List.head?_append_of_ne_nil _ (by simp),
        List.getLast?_cons_cons, ← ht, ih]

theorem mem_of_getLast?_eq (l : List Char) (c : Char) (h : l.getLast? = some c) :
    c ∈ l := by
  obtain ⟨hne, he⟩ := List.mem_getLast?_eq_getLast (show c ∈ l.getLast? by rw [h]; rfl)
  rw [he]
  exact List.getLast_mem hne

theorem pyStrip_eq_self (l : List Char)
    (h1 : ∀ c, l.head? = some c → pyStripSpace c = false)
    (h2 : ∀ c, l.getLast? = some c → pyStripSpace c = false) :
    pyStrip l = l := by
  have d1 : l.dropWhile pyStripSpace = l := by
    cases l with
    | nil => rfl
    | cons c t => rw [List.dropWhile_cons, if_neg (by simp [h1 c rfl])]
  have d2 : l.reverse.dropWhile pyStripSpace = l.reverse := by
    cases hr : l.reverse with
    | nil => rfl
    | cons c t =>
      have hc : l.getLast? = some c := by
        rw [← head?_reverse_eq_getLast?, hr]
        rfl
      rw [List.dropWhile_cons, if_neg (by simp [h2 c hc])]
  unfold pyStrip
  rw [d1, d2, List.reverse_reverse]

theorem pyStrip_eq_nil (l : List Char) (h : ∀ c ∈ l, pyStripSpace c = true) :
    pyStrip l = [] := by
  have d1 : l.dropWhile pyStripSpace = [] := by
    induction l with
    | nil => rfl
    | cons c t ih =>
      rw [List.dropWhile_cons, if_pos (by simp [h c (List.mem_cons_self _ _)])]
      exact ih (fun x hx => h x (List.mem_cons_of_mem _ hx))
  unfold pyStrip
  rw [d1]
  rfl

theorem quotedArgsChars_getLast (a : List Char) (rest : List (List Char)) :
    (quotedArgsChars (a :: rest)).getLast? = some '"' := by
  induction rest generalizing a with
  | nil =>
    show (' ' :: '"' :: (a ++ '"' :: [])).getLast? = some '"'
    rw [show ' ' :: '"' :: (a ++ '"' :: []) = (' ' :: '"' :: a) ++ '"' :: [] by simp,
      List.getLast?_append_cons]
    rfl
  | cons a' rest' ih =>
    have hq : quotedArgsChars (a' :: rest') =
        ' ' :: '"' :: (a' ++ '"' :: quotedArgsChars rest') := rfl
    show (' ' :: '"' :: (a ++ '"' :: quotedArgsChars (a' :: rest'))).getLast?
        = some '"'
    rw [show ' ' :: '"' :: (a ++ '"' :: quotedArgsChars (a' :: rest'))
        = (' ' :: '"' :: a) ++ '"' :: quotedArgsChars (a' :: rest') by simp,
      List.getLast?_append_cons, hq, List.getLast?_cons_cons, ← hq]
    exact ih a'

end Kontacto

namespace Kontacto

theorem shlexSplit_cmd_quoted_args (c0 : Char) (cs : List Char)
    (argsC : List (List Char))
    (hplain : ∀ c ∈ c0 :: cs, plainChar c = true)
    (hargs : ∀ a ∈ argsC, ∀ c ∈ a, c ≠ '"' ∧ c ≠ '\\') :
    shlexSplit ((c0 :: cs) ++ quotedArgsChars argsC)
      = some (String.mk (c0 :: cs) :: argsC.map (fun a => String.mk a)) := by
  obtain ⟨h0s, h0w, h0q, h0b⟩ := plainChar_spec c0 (hplain c0 (List.mem_cons_self _ _))
  show shlexLoop (c0 :: (cs ++ quotedArgsChars argsC)) .ws [] false [] = _
  simp only [shlexLoop]
  rw [if_neg (by simp [h0w]), if_neg h0b, if_neg (by simp [h0q])]
  rw [show ([] : List Char) ++ [c0] = [c0] from rfl]
  rw [shlexLoop_word_plain cs _ _ _ _ (fun x hx => hplain x (List.mem_cons_of_mem _ hx))]
  rw [shlexLoop_quoted_args argsC _ _ _ hargs (Or.inl (by simp))]
  simp

end Kontacto

namespace Kontacto

/-- C8: the tokenizer contract. A command word of plain characters followed by
double-quoted arguments parses to the lowercased command word and the quoted
interiors — whitespace inside quotes preserved, wrapping quotes stripped,
argument case untouched; empty or all-whitespace input parses to `("", [])`;
and the spec's example holds. -/
theorem parse_command_input_spec :
    (∀ (cmd : String) (args : List String),
      cmd.toList ≠ [] →
      (∀ c ∈ cmd.toList, plainChar c = true) →
      (∀ a ∈ args, ∀ c ∈ a.toList, c ≠ '"' ∧ c ≠ '\\') →
      parse_command_input (mkQuotedInput cmd args) [] = (pyLower cmd, args))
    ∧ (∀ s : String, (∀ c ∈ s.toList, pyStripSpace c = true) →
        parse_command_input s [] = ("", []))
    ∧ parse_command_input "add-contact \"John Doe\" \"123 Main St\"" []
        = ("add-contact", ["John Doe", "123 Main St"]) := by
  refine ⟨?_, ?_, by decide⟩
  · intro cmd args hne hplain hargs
    obtain ⟨c0, cs, hcl⟩ := List.exists_cons_of_ne_nil hne
    have hinput : (mkQuotedInput cmd args).toList
        = cmd.toList ++ quotedArgsChars (args.map String.toList) := rfl
    have hargsC : ∀ a ∈ args.map String.toList, ∀ c ∈ a, c ≠ '"' ∧ c ≠ '\\' := by
      intro a ha c hc
      obtain ⟨s, hs, rfl⟩ := List.mem_map.mp ha
      exact hargs s hs c hc
    have hstrip : pyStrip (mkQuotedInput cmd args).toList
        = cmd.toList ++ quotedArgsChars (args.map String.toList) := by
      rw [hinput]
      apply pyStrip_eq_self
      · intro c hc
        rw [hcl] at hc
        simp only [List.cons_append, List.head?_cons, Option.some.injEq] at hc
        rw [← hc]
        exact (plainChar_spec c0 (hplain c0 (hcl ▸ List.mem_cons_self _ _))).1
      · intro c hc
        cases hac : args.map String.toList with
        | nil =>
          rw [hac] at hc
          simp only [quotedArgsChars, List.append_nil] at hc
          exact (plainChar_spec c (hplain c (mem_of_getLast?_eq _ _ hc))).1
        | cons a rest =>
          rw [hac, List.getLast?_append_of_ne_nil _
              (by rw [show quotedArgsChars (a :: rest)
                  = ' ' :: '"' :: (a ++ '"' :: quotedArgsChars rest) from rfl]
                  exact List.cons_ne_nil _ _),
            quotedArgsChars_getLast] at hc
          have : c = '"' := by simpa using hc.symm
          rw [this]
          rfl
    have hsl : shlexSplit (cmd.toList ++ quotedArgsChars (args.map String.toList))
        = some (String.mk cmd.toList ::
            (args.map String.toList).map (fun a => String.mk a)) := by
      rw [hcl]
      exact shlexSplit_cmd_quoted_args c0 cs _ (hcl ▸ hplain) hargsC
    unfold parse_command_input
    rw [hstrip, hsl]
    show (pyLower (String.mk cmd.toList),
        (args.map String.toList).map (fun a => String.mk a)) = (pyLower cmd, args)
    have h2 : (args.map String.toList).map (fun a => String.mk a) = args := by
      rw [List.map_map]
      conv_rhs => rw [← List.map_id args]
      apply List.map_congr_left
      intro a _
      cases a
      rfl
    rw [h2]
    rfl
  · intro s hs
    have hstrip := pyStrip_eq_nil s.toList hs
    unfold parse_command_input
    rw [hstrip]
    rfl

/-- Witness: `parse_command_input_spec` at a command with one quoted argument
containing a space. -/
theorem parse_command_input_spec_witness :
    parse_command_input (mkQuotedInput "go" ["a b"]) [] = (pyLower "go", ["a b"]) :=
  parse_command_input_spec.1 "go" ["a b"] (by decide) (by decide) (by decide)

/-- C9: graceful degradation of the tokenizer. `parse_command_input` is a
total function; whenever the `shlex` pass fails (unbalanced or malformed
quoting, modelled by `shlexSplit` returning `none`), the result is computed
from the naive whitespace split of the stripped line instead. -/
theorem parse_command_input_fallback (input_text : String)
    (command_aliases : List (String × String))
    (h : shlexSplit (pyStrip input_text.toList) = none) :
    parse_command_input input_text command_aliases
      = finishParse (splitWS (pyStrip input_text.toList)) command_aliases := by
  unfold parse_command_input
  rw [h]

/-- Witness: `parse_command_input_fallback` on an input with an unbalanced
quote: the fallback whitespace split keeps the stray quote in the argument. -/
theorem parse_command_input_fallback_witness :
    parse_command_input "add 'John" [] = ("add", ["'John"]) :=
  (parse_command_input_fallback "add 'John" [] (by decide)).trans (by decide)

end Kontacto
